import Mathlib

/-!
Verification of the poopfuck interpreter (src/poop.js).

The file shallowly embeds the three pipeline stages of the interpreter:

* `tokenize` (js lines 30-74): a cursor-driven scan over the source text,
  modelled as a step function `tokStep` plus a fuel-driven loop `tokRun`
  (the js `while` loop can fail to advance the cursor, so the embedding
  must be able to express non-termination).
* `parse` (js lines 77-132): the recursive-descent parser with its shared
  cursor `current` and ambient `loopDepth`, modelled as `parseLoop` taking
  and returning the cursor and depth explicitly, with fuel for the outer
  `while` loop.
* `PoopFucker.do` (js lines 135-181): the tree-walking executor, modelled
  as the fuel-driven `run` over an explicit machine state `PState`.

Javascript-specific value behaviour that the executor can observe (the
`null` tape sentinel, `undefined` reads off the array, `NaN` arithmetic,
negative array indices becoming ordinary object properties) is modelled by
the value type `JSVal` and the property list `PState.props`.
-/

namespace Poop

/-- The javascript values a memory cell (or a stray array property) can
hold in this program: numbers that are integers, `NaN` (from arithmetic on
`undefined`), the `null` tape sentinel, and `undefined`. -/
inductive JSVal where
  | int (n : Int)
  | nan
  | null
  | undef
deriving DecidableEq

/-- The executor's state: `pointer` and `memory` of the js class
`PoopFucker` (js lines 136-137), plus `props`, the properties a js array
acquires when written at a negative index (newest first), and the output
written so far (`process.stdout.write` of one char code per `OUT`). -/
structure PState where
  pointer : Int
  memory : List JSVal
  props : List (Int × JSVal)
  output : List Nat
deriving DecidableEq

/-- Reading an object property list, `undefined` when absent. -/
def lookupProp : List (Int × JSVal) → Int → JSVal
  | [], _ => .undef
  | (j, v) :: rest, i => if i = j then v else lookupProp rest i

/-- `this.memory[i]`: an in-range index reads the array element, an index
at or past the length reads `undefined`, a negative index reads the
object property (default `undefined`). -/
def memGet (s : PState) (i : Int) : JSVal :=
  if 0 ≤ i then s.memory.getD i.toNat .undef else lookupProp s.props i

/-- `this.memory[i] = v`: an in-range index writes the element; writing at
or past the length extends the array (javascript fills the gap with holes,
which read as `undefined`); a negative index stores an object property. -/
def memSet (s : PState) (i : Int) (v : JSVal) : PState :=
  if 0 ≤ i then
    if i.toNat < s.memory.length then { s with memory := s.memory.set i.toNat v }
    else { s with memory :=
      s.memory ++ List.replicate (i.toNat - s.memory.length) .undef ++ [v] }
  else { s with props := (i, v) :: s.props }

/-- Javascript `x++` on the values reachable here: a number increments,
`NaN` stays `NaN`, `null` coerces to `0`, `undefined` coerces to `NaN`. -/
def jsIncr : JSVal → JSVal
  | .int n => .int (n + 1)
  | .nan => .nan
  | .null => .int 1
  | .undef => .nan

/-- Javascript `x--` on the values reachable here. -/
def jsDecr : JSVal → JSVal
  | .int n => .int (n - 1)
  | .nan => .nan
  | .null => .int (-1)
  | .undef => .nan

/-- `String.fromCharCode(x)`: `ToUint16` of the value; `NaN`, `null` and
`undefined` all give code `0`. -/
def toCharCode : JSVal → Nat
  | .int n => (n % 65536).toNat
  | .nan => 0
  | .null => 0
  | .undef => 0

/-- The executor's runtime error: the `default` arm of the `switch`
(js line 174).  (The `Invalid instruction type` throw of js line 177 is
unrepresentable here because the embedded instruction type is closed.) -/
inductive ExecErr where
  | undefinedInstruction (v : String)
deriving DecidableEq

/-- One instruction node of the tree the parser builds: `{type:
"instruction", value}` or `{type: "loop", value}` (js lines 121-124).
The `value` of a simple node is kept as the 2-character string the js
builds by concatenation, so the executor can compare it exactly as the
`switch` does. -/
inductive Ast where
  | simple (v : String)
  | loop (body : List Ast)

/-- One `case` dispatch of `PoopFucker.do` (js lines 146-175) on a simple
instruction value. -/
def execSimple (s : PState) (v : String) : Except ExecErr PState :=
  if v = "。？" then
    -- INCREMENT_POINTER: pointer++, then a null cell under the new pointer
    -- becomes 0 and a fresh null sentinel is pushed (js lines 147-152).
    let s1 : PState := { s with pointer := s.pointer + 1 }
    if memGet s1 s1.pointer = .null then
      let s2 := memSet s1 s1.pointer (.int 0)
      .ok { s2 with memory := s2.memory ++ [.null] }
    else .ok s1
  else if v = "？。" then
    -- DECREMENT_POINTER: pointer--, no bound check (js lines 154-155).
    .ok { s with pointer := s.pointer - 1 }
  else if v = "。。" then
    -- INCREMENT_VALUE (js lines 157-158).
    .ok (memSet s s.pointer (jsIncr (memGet s s.pointer)))
  else if v = "！！" then
    -- DECREMENT_VALUE (js lines 160-161).
    .ok (memSet s s.pointer (jsDecr (memGet s s.pointer)))
  else if v = "。！" then
    -- IN: console.warn only, no state change (js lines 163-167).
    .ok s
  else if v = "！。" then
    -- OUT: write the char code of the addressed cell (js lines 168-171).
    .ok { s with output := s.output ++ [toCharCode (memGet s s.pointer)] }
  else .error (.undefinedInstruction v)

/-- `PoopFucker.do` (js lines 139-180): walk the instruction list; a loop
node re-runs its body while the cell at the current pointer is `!== 0`,
re-testing after each complete body run.  The `while` loop makes the js
partial, so the embedding consumes one unit of fuel per node step and per
loop re-entry; `none` means the fuel ran out. -/
def run : Nat → PState → List Ast → Option (Except ExecErr PState)
  | _, s, [] => some (.ok s)
  | 0, _, _ :: _ => none
  | fuel + 1, s, .simple v :: rest =>
    match execSimple s v with
    | .error e => some (.error e)
    | .ok s' => run fuel s' rest
  | fuel + 1, s, .loop body :: rest =>
    if memGet s s.pointer = .int 0 then run fuel s rest
    else
      match run fuel s body with
      | none => none
      | some (.error e) => some (.error e)
      | some (.ok s') => run fuel s' (.loop body :: rest)

/-- `new PoopFucker()`: `pointer = 0`, `memory = [0, null]` (js lines
136-137), no stray properties, nothing written yet. -/
def freshState : PState := ⟨0, [.int 0, .null], [], []⟩

/-! ## Lexer (js `tokenize`, lines 30-74)

The source string is modelled as its list of characters (all characters
the language uses are in the basic plane, so javascript's UTF-16 indexing
agrees with character indexing). -/

/-- The lexer's errors: js lines 47 and 69. -/
inductive LexErr where
  | unclosedComment
  | invalidToken (c : Char) (pos : Nat)
deriving DecidableEq

/-- Javascript `/\s/.test(c)`: the whitespace class of regular
expressions. -/
def isJsWhitespace (c : Char) : Bool :=
  c ∈ [' ', '\t', '\n', '\r', '\x0b', '\x0c', '\u00A0', '\u1680',
    '\u2000', '\u2001', '\u2002', '\u2003', '\u2004', '\u2005', '\u2006',
    '\u2007', '\u2008', '\u2009', '\u200A', '\u2028', '\u2029', '\u202F',
    '\u205F', '\u3000', '\uFEFF']

/-- `validTokens` (js line 4). -/
def validTokensL : List (List Char) :=
  [['う', 'ん', 'ち', '！'], ['う', 'ん', 'ち', '？'], ['う', 'ん', 'ち', '。']]

/-- The per-position character sets of the invalid-token check
(js line 66): `[["う"], ["ん"], ["ち"], ["！", "？", "。"]][i]`. -/
def allowedAt : Nat → List Char
  | 0 => ['う']
  | 1 => ['ん']
  | 2 => ['ち']
  | 3 => ['！', '？', '。']
  | _ => []

/-- The `forEach` of js lines 65-71: the first character of the token
window that is not allowed at its position, with its index.  `none` when
every present character is allowed (then the js throws nothing — and the
scan does not advance). -/
def findInvalid : List Char → Nat → Option (Char × Nat)
  | [], _ => none
  | c :: rest, i =>
    if c ∈ allowedAt i then findInvalid rest (i + 1) else some (c, i)

/-- The inner `while` of the comment skip (js lines 45-49): `c` is the
value of `current` before the pre-increment of the loop test.  On exit
the js runs `current += 2` past the closer, so the cursor after the whole
comment is returned. -/
def commentScan (input : List Char) (c : Nat) : Except LexErr Nat :=
  if ((input.drop (c + 1)).take 2 = ['*', '/']) then .ok (c + 1 + 2)
  else if input.length ≤ c + 1 + 2 then .error .unclosedComment
  else commentScan input (c + 1)
termination_by input.length - c
decreasing_by simp_wf; omega

/-- What one iteration of the lexer's `while` loop does. -/
inductive TokStep where
  | cont (c : Nat) (tks : List Char)
  | done (tks : List Char)
  | err (e : LexErr)
deriving DecidableEq

/-- One iteration of the `while (current < input.length)` loop of
`tokenize` (js lines 34-72), at cursor `c` with the markers collected so
far.  Note the last branch: when the 4-character window is not a valid
token but every character in it is allowed at its position (an input
ending in a proper front part of a token), the js `forEach` throws
nothing and the loop repeats with `current` unchanged. -/
def tokStep (input : List Char) (c : Nat) (tks : List Char) : TokStep :=
  match input.drop c with
  | [] => .done tks
  | ch :: rest1 =>
    if isJsWhitespace ch then .cont (c + 1) tks
    else if (ch :: rest1).take 2 = ['/', '*'] then
      match commentScan input (c + 1) with
      | .error e => .err e
      | .ok c' => .cont c' tks
    else
      let tok := (ch :: rest1).take 4
      if tok ∈ validTokensL then .cont (c + 4) (tks ++ [tok.getD 3 ' '])
      else
        match findInvalid tok 0 with
        | some p => .err (.invalidToken p.1 (c + p.2 + 1))
        | none => .cont c tks

/-- The lexer's `while` loop, driven by fuel (the js loop need not
terminate: see `tokenize_loops_forever`).  `none` means the fuel ran
out. -/
def tokRun : Nat → List Char → Nat → List Char → Option (Except LexErr (List Char))
  | 0, _, _, _ => none
  | fuel + 1, input, c, tks =>
    match tokStep input c tks with
    | .done tks' => some (.ok tks')
    | .err e => some (.error e)
    | .cont c' tks' => tokRun fuel input c' tks'

/-- `tokenize(input)` (js lines 30-74), with fuel for its `while` loop. -/
def tokenize (fuel : Nat) (input : List Char) : Option (Except LexErr (List Char)) :=
  tokRun fuel input 0 []

/-! ## Parser (js `parse`, lines 77-132) -/

/-- The parser's errors: js lines 80, 98, 103 and 114. -/
inductive ParseErr where
  | oddTokenCount
  | invalidInstructionPair
  | unsupportedInput
  | unmatchedLoopEnd
deriving DecidableEq

/-- `tokens[current] + tokens[++current]` (js line 95) applied to the
tokens remaining from the cursor: javascript string concatenation turns a
missing second token into the text `undefined`. -/
def pairStr : List Char → String
  | a :: b :: _ => String.mk [a, b]
  | [a] => String.mk [a] ++ "undefined"
  | [] => "undefined" ++ "undefined"

/-- `parseRecursively` (js lines 91-131).  The js shares the cursor
`current` and the counter `loopDepth` across the recursion as ambient
mutable state; here one invocation takes them and returns their final
values next to the instruction list it built (`acc` holds the current
block's instructions, newest first).  Each iteration of the js `while`
loop costs one unit of fuel; `parse` supplies enough fuel for any input
(`parse_total`). -/
def parseLoop : Nat → List Char → Nat → Nat → List Ast →
    Option (Except ParseErr (List Ast × Nat × Nat))
  | 0, _, _, _, _ => none
  | fuel + 1, ts, c, d, acc =>
    if c < ts.length then
      let instr := pairStr (ts.drop c)
      if instr = "？？" then some (.error .invalidInstructionPair)
      else if instr = "。！" then some (.error .unsupportedInput)
      else if instr = "？！" then
        if 0 < d then some (.ok (acc.reverse, c + 1, d - 1))
        else some (.error .unmatchedLoopEnd)
      else if instr = "！？" then
        match parseLoop fuel ts (c + 2) (d + 1) [] with
        | none => none
        | some (.error e) => some (.error e)
        | some (.ok (body, c', d')) =>
          parseLoop fuel ts (c' + 1) d' (.loop body :: acc)
      else parseLoop fuel ts (c + 2) d (.simple instr :: acc)
    else some (.ok (acc.reverse, c, d))

/-- `parse(tokens)` (js lines 77-132): the odd-count check, then the
recursive descent from cursor 0 at depth 0.  The fuel `ts.length + 1`
always suffices (`parse_total`). -/
def parse (ts : List Char) : Option (Except ParseErr (List Ast)) :=
  if ts.length % 2 ≠ 0 then some (.error .oddTokenCount)
  else
    match parseLoop (ts.length + 1) ts 0 0 [] with
    | none => none
    | some (.error e) => some (.error e)
    | some (.ok (l, _, _)) => some (.ok l)

/-! ## Pipeline (js `runCode`, lines 184-189) -/

/-- A terminal error of any stage. -/
inductive PoopErr where
  | lex (e : LexErr)
  | parseErr (e : ParseErr)
  | exec (e : ExecErr)

/-- The pipeline from a marker sequence on: parse, then execute on a
fresh `PoopFucker`; the value of a successful run is its output (the char
codes written in order).  A parse error stops the pipeline before any
instruction executes, so a run that fails in the parser has written
nothing. -/
def runTokens (fuel : Nat) (ts : List Char) : Option (Except PoopErr (List Nat)) :=
  match parse ts with
  | none => none
  | some (.error e) => some (.error (.parseErr e))
  | some (.ok l) =>
    match run fuel freshState l with
    | none => none
    | some (.error e) => some (.error (.exec e))
    | some (.ok s) => some (.ok s.output)

/-- `runCode(code)` (js lines 184-189): tokenize, then `runTokens`. -/
def runCode (fuel : Nat) (code : List Char) : Option (Except PoopErr (List Nat)) :=
  match tokenize fuel code with
  | none => none
  | some (.error e) => some (.error (.lex e))
  | some (.ok tks) => runTokens fuel tks

/-! ## Derived notions used by the statements -/

/-- A tape whose one cell under the pointer holds `n` (the configuration
of the loop test of §8 of the spec). -/
def cellState (n : Int) : PState := ⟨0, [.int n, .null], [], []⟩

/-- The shape the executor's state keeps from `new PoopFucker()` on:
integer cells followed by exactly one trailing `null` sentinel, the
pointer never at or past the sentinel (it may be negative: `？。` has no
lower bound check). -/
def InvShape (s : PState) : Prop :=
  ∃ ints : List Int,
    s.memory = ints.map JSVal.int ++ [JSVal.null] ∧ s.pointer < (ints.length : Int)

/-- No stray array property holds `null` (writes at negative indices only
ever store numbers, so this holds throughout a run). -/
def PropsOK (s : PState) : Prop := ∀ p ∈ s.props, p.2 ≠ JSVal.null

/-- The five instruction pairs the executor's `switch` handles by doing
work: every other `case` is `IN` (warn only) or the error `default`. -/
def execPairs : List String := ["。？", "？。", "。。", "！！", "！。"]

mutual

/-- Every simple node of the tree carries one of the five executable
pairs. -/
def astOK : Ast → Bool
  | .simple v => decide (v ∈ execPairs)
  | .loop body => astsOK body

/-- `astOK` on every node of a list. -/
def astsOK : List Ast → Bool
  | [] => true
  | a :: rest => astOK a && astsOK rest

end

mutual

/-- Some simple node of the tree carries the `IN` pair `。！`. -/
def usesInput : Ast → Bool
  | .simple v => decide (v = "。！")
  | .loop body => usesInputL body

/-- `usesInput` on a list of nodes. -/
def usesInputL : List Ast → Bool
  | [] => false
  | a :: rest => usesInput a || usesInputL rest

end

mutual

/-- How many marker pairs of the input a node consumed: one for a simple
node, two (its delimiters) plus its body's count for a loop node. -/
def countA : Ast → Nat
  | .simple _ => 1
  | .loop body => 2 + countL body

/-- Total marker pairs consumed by a list of nodes. -/
def countL : List Ast → Nat
  | [] => 0
  | a :: rest => countA a + countL rest

end

/-- The marker sequence chunked into consecutive pairs, written as the
2-character strings the parser compares against (a trailing odd marker is
not a pair). -/
def pairsOf : List Char → List String
  | a :: b :: rest => String.mk [a, b] :: pairsOf rest
  | _ => []

/-- A pair sequence the parser consumes as one complete block: no
reserved `？？` pair, no `IN` pair, and every `！？` matched by its
`？！`. -/
inductive Balanced : List String → Prop
  | nil : Balanced []
  | simple (p : String) (ps : List String) :
      p ≠ "？？" → p ≠ "。！" → p ≠ "！？" → p ≠ "？！" →
      Balanced ps → Balanced (p :: ps)
  | loop (body rest : List String) :
      Balanced body → Balanced rest →
      Balanced ("！？" :: body ++ "？！" :: rest)

/-- A pair sequence the parser consumes without error but which may end
inside open loops: a balanced block, or a balanced block, then a `！？`
whose matching `？！` never comes, then again such a sequence. -/
inductive Dangling : List String → Prop
  | bal (ps : List String) : Balanced ps → Dangling ps
  | more (ps rest : List String) :
      Balanced ps → Dangling rest → Dangling (ps ++ "！？" :: rest)

/-- A pair sequence that ends with at least one loop still open: a
balanced block, then an unmatched `！？`, then any error-free tail. -/
def OpenSeq (ps : List String) : Prop :=
  ∃ b r, Balanced b ∧ Dangling r ∧ ps = b ++ "！？" :: r

mutual

/-- Every simple node's value was read off the token list as a full
2-marker pair and is none of the four pairs the parser intercepts
(`？？`, `。！`, `？！`, `！？`). -/
def AstFrom (ts : List Char) : Ast → Prop
  | .simple v => (v ≠ "？？" ∧ v ≠ "。！" ∧ v ≠ "？！" ∧ v ≠ "！？") ∧
      ∃ a b, a ∈ ts ∧ b ∈ ts ∧ v = String.mk [a, b]
  | .loop body => AstsFrom ts body

/-- `AstFrom` on every node of a list. -/
def AstsFrom (ts : List Char) : List Ast → Prop
  | [] => True
  | a :: rest => AstFrom ts a ∧ AstsFrom ts rest

end

/-! ## Small list facts -/

theorem lookupProp_ne_null {props : List (Int × JSVal)} (h : ∀ p ∈ props, p.2 ≠ JSVal.null)
    (i : Int) : lookupProp props i ≠ JSVal.null := by
  induction props with
  | nil => simp [lookupProp]
  | cons q rest ih =>
    simp only [lookupProp]
    split
    · exact h q (by simp)
    · exact ih fun p hp => h p (by simp [hp])

theorem getD_concat_len {α : Type} (l : List α) (x : α) (d : α) :
    (l ++ [x]).getD l.length d = x := by
  induction l with
  | nil => rfl
  | cons a t ih => simp

theorem set_concat_len {α : Type} (l : List α) (x v : α) :
    (l ++ [x]).set l.length v = l ++ [v] := by
  induction l with
  | nil => rfl
  | cons a t ih => simp [List.set, ih]

theorem getD_map_int_lt (ints : List Int) (rest : List JSVal) (t : Nat)
    (h : t < ints.length) :
    ∃ n, (ints.map JSVal.int ++ rest).getD t JSVal.undef = JSVal.int n := by
  induction ints generalizing t with
  | nil => simp at h
  | cons a tl ih =>
    cases t with
    | zero => exact ⟨a, rfl⟩
    | succ t => exact ih t (by simpa using h)

theorem set_map_int (ints : List Int) (rest : List JSVal) (t : Nat) (m : Int)
    (h : t < ints.length) :
    (ints.map JSVal.int ++ rest).set t (JSVal.int m) =
      (ints.set t m).map JSVal.int ++ rest := by
  induction ints generalizing t with
  | nil => simp at h
  | cons a tl ih =>
    cases t with
    | zero => simp [List.set]
    | succ t => simp [List.set, ih t (by simpa using h)]

theorem jsIncr_ne_null (v : JSVal) : jsIncr v ≠ JSVal.null := by
  cases v <;> simp [jsIncr]

theorem jsDecr_ne_null (v : JSVal) : jsDecr v ≠ JSVal.null := by
  cases v <;> simp [jsDecr]

/-! ## Executor lemmas -/

/-- What `INCREMENT_POINTER` does to a state of the reachable shape: the
pointer moves right; exactly when it thereby lands on the `null`
sentinel, that cell becomes `0` and a new sentinel is pushed. -/
theorem execSimple_incP (s : PState) (ints : List Int)
    (hm : s.memory = ints.map JSVal.int ++ [JSVal.null])
    (hp : s.pointer < (ints.length : Int)) (hpr : PropsOK s) :
    execSimple s "。？" = .ok { s with
      pointer := s.pointer + 1,
      memory := if s.pointer + 1 = (ints.length : Int)
        then ints.map JSVal.int ++ [JSVal.int 0, JSVal.null] else s.memory } := by
  have hlen : s.memory.length = ints.length + 1 := by simp [hm]
  rcases lt_trichotomy (s.pointer + 1) ((ints.length : Int)) with hlt | heq | hgt
  · -- still inside the integer cells (or negative): nothing grows
    rw [if_neg (by omega)]
    by_cases hnn : 0 ≤ s.pointer + 1
    · have ht : (s.pointer + 1).toNat < ints.length := by omega
      obtain ⟨n, hn⟩ := getD_map_int_lt ints [JSVal.null] (s.pointer + 1).toNat ht
      simp only [execSimple, if_pos rfl, memGet, hnn, if_pos, hm, hn]
      simp
    · have : ¬ (0 ≤ s.pointer + 1) := hnn
      simp only [execSimple, if_pos rfl, memGet, this, if_neg]
      simp [lookupProp_ne_null hpr]
  · -- the pointer lands on the sentinel: it becomes 0, a new null is pushed
    rw [if_pos heq]
    have hnn : 0 ≤ s.pointer + 1 := by omega
    have ht : (s.pointer + 1).toNat = ints.length := by omega
    have hml : (ints.map JSVal.int).length = ints.length := by simp
    have hget : s.memory.getD ints.length JSVal.undef = JSVal.null := by
      rw [hm, ← hml, getD_concat_len]
    have hset : s.memory.set ints.length (JSVal.int 0) =
        ints.map JSVal.int ++ [JSVal.int 0] := by
      rw [hm, ← hml, set_concat_len]
    simp only [execSimple, if_pos rfl, memGet, memSet, hnn, if_pos, ht, hlen, hget]
    rw [if_pos (by omega)]
    simp [hset, List.append_assoc]
  · omega

/-- Writing `g (memory[pointer])` at the pointer (the shape of
`INCREMENT_VALUE` and `DECREMENT_VALUE`) keeps the state shape: in range
it rewrites one integer cell, at a negative pointer it only stores an
object property (never `null`). -/
theorem memSet_cell (s : PState) (ints : List Int)
    (hm : s.memory = ints.map JSVal.int ++ [JSVal.null])
    (hp : s.pointer < (ints.length : Int)) (hps : PropsOK s) (g : JSVal → JSVal)
    (hgnull : ∀ x, g x ≠ JSVal.null)
    (hgint : ∀ n, ∃ m, g (JSVal.int n) = JSVal.int m) :
    InvShape (memSet s s.pointer (g (memGet s s.pointer))) ∧
    PropsOK (memSet s s.pointer (g (memGet s s.pointer))) ∧
    (memSet s s.pointer (g (memGet s s.pointer))).memory.length = s.memory.length ∧
    (memSet s s.pointer (g (memGet s s.pointer))).pointer = s.pointer := by
  have hlen : s.memory.length = ints.length + 1 := by simp [hm]
  by_cases hn : 0 ≤ s.pointer
  · have ht : s.pointer.toNat < ints.length := by omega
    obtain ⟨n, hn'⟩ := getD_map_int_lt ints [JSVal.null] s.pointer.toNat ht
    obtain ⟨m, hm'⟩ := hgint n
    have hg : memGet s s.pointer = JSVal.int n := by
      simp only [memGet, if_pos hn, hm]; exact hn'
    have hmem : memSet s s.pointer (g (memGet s s.pointer)) =
        { s with memory := s.memory.set s.pointer.toNat (JSVal.int m) } := by
      rw [hg, hm']
      simp only [memSet, if_pos hn,
        if_pos (show s.pointer.toNat < s.memory.length by omega)]
    rw [hmem]
    refine ⟨⟨ints.set s.pointer.toNat m, ?_, ?_⟩, hps, by simp, rfl⟩
    · show s.memory.set s.pointer.toNat (JSVal.int m) = _
      rw [hm]
      exact set_map_int ints [JSVal.null] s.pointer.toNat m ht
    · show s.pointer < ((ints.set s.pointer.toNat m).length : Int)
      simpa using hp
  · have hmem : memSet s s.pointer (g (memGet s s.pointer)) =
        { s with props := (s.pointer, g (memGet s s.pointer)) :: s.props } := by
      simp only [memSet, if_neg hn]
    rw [hmem]
    refine ⟨⟨ints, hm, hp⟩, ?_, rfl, rfl⟩
    intro p hp'
    rcases List.mem_cons.mp hp' with h | h
    · rw [h]; exact hgnull _
    · exact hps p h

/-- One executed instruction preserves the state shape, and only
`INCREMENT_POINTER` can change the tape's length — when it does, by
exactly one zero cell before a fresh sentinel. -/
theorem exec_inv (s s' : PState) (v : String)
    (hs : InvShape s) (hps : PropsOK s) (h : execSimple s v = .ok s') :
    (InvShape s' ∧ PropsOK s') ∧
    (v ≠ "。？" → s'.memory.length = s.memory.length) ∧
    (v = "。？" → s'.memory = s.memory ∨
      s'.memory = s.memory.dropLast ++ [JSVal.int 0, JSVal.null]) := by
  obtain ⟨ints, hm, hp⟩ := hs
  by_cases h1 : v = "。？"
  · subst h1
    rw [execSimple_incP s ints hm hp hps] at h
    have hs' : s' = { s with
        pointer := s.pointer + 1,
        memory := if s.pointer + 1 = (ints.length : Int)
          then ints.map JSVal.int ++ [JSVal.int 0, JSVal.null] else s.memory } := by
      cases h; rfl
    subst hs'
    by_cases hc : s.pointer + 1 = (ints.length : Int)
    · simp only [if_pos hc]
      refine ⟨⟨⟨ints ++ [0], ?_, ?_⟩, hps⟩, fun hne => absurd rfl hne, fun _ => ?_⟩
      · show ints.map JSVal.int ++ [JSVal.int 0, JSVal.null] = _
        simp [List.append_assoc]
      · show s.pointer + 1 < (((ints ++ [0]).length : Nat) : Int)
        simp only [List.length_append, List.length_cons, List.length_nil]
        push_cast
        omega
      · right
        show ints.map JSVal.int ++ [JSVal.int 0, JSVal.null] = _
        rw [hm]
        simp [List.dropLast_concat]
    · simp only [if_neg hc]
      refine ⟨⟨⟨ints, hm, ?_⟩, hps⟩, fun hne => absurd rfl hne, fun _ => ?_⟩
      · show s.pointer + 1 < ((ints.length : Nat) : Int)
        omega
      · exact Or.inl trivial
  · have hex := h
    rw [execSimple, if_neg h1] at hex
    by_cases h2 : v = "？。"
    · rw [if_pos h2] at hex
      have hs' : s' = { s with pointer := s.pointer - 1 } := by cases hex; rfl
      subst hs'
      exact ⟨⟨⟨ints, hm, by show s.pointer - 1 < ((ints.length : Nat) : Int); omega⟩, hps⟩,
        fun _ => rfl, fun he => absurd he h1⟩
    · rw [if_neg h2] at hex
      by_cases h3 : v = "。。"
      · rw [if_pos h3] at hex
        have hs' : s' = memSet s s.pointer (jsIncr (memGet s s.pointer)) := by
          cases hex; rfl
        subst hs'
        have := memSet_cell s ints hm hp hps jsIncr jsIncr_ne_null
          (fun n => ⟨n + 1, rfl⟩)
        exact ⟨⟨this.1, this.2.1⟩, fun _ => this.2.2.1, fun he => absurd he h1⟩
      · rw [if_neg h3] at hex
        by_cases h4 : v = "！！"
        · rw [if_pos h4] at hex
          have hs' : s' = memSet s s.pointer (jsDecr (memGet s s.pointer)) := by
            cases hex; rfl
          subst hs'
          have := memSet_cell s ints hm hp hps jsDecr jsDecr_ne_null
            (fun n => ⟨n - 1, rfl⟩)
          exact ⟨⟨this.1, this.2.1⟩, fun _ => this.2.2.1, fun he => absurd he h1⟩
        · rw [if_neg h4] at hex
          by_cases h5 : v = "。！"
          · rw [if_pos h5] at hex
            have hs' : s' = s := by cases hex; rfl
            subst hs'
            exact ⟨⟨⟨ints, hm, hp⟩, hps⟩, fun _ => rfl, fun he => absurd he h1⟩
          · rw [if_neg h5] at hex
            by_cases h6 : v = "！。"
            · rw [if_pos h6] at hex
              have hs' : s' = { s with
                  output := s.output ++ [toCharCode (memGet s s.pointer)] } := by
                cases hex; rfl
              subst hs'
              exact ⟨⟨⟨ints, hm, hp⟩, hps⟩, fun _ => rfl, fun he => absurd he h1⟩
            · rw [if_neg h6] at hex
              cases hex

/-- A successful run from a shaped state ends in a shaped state. -/
theorem run_inv (f : Nat) : ∀ (l : List Ast) (s s' : PState),
    InvShape s → PropsOK s → run f s l = some (.ok s') →
    InvShape s' ∧ PropsOK s' := by
  induction f with
  | zero =>
    intro l s s' h1 h2 h
    cases l with
    | nil => rw [run] at h; cases h; exact ⟨h1, h2⟩
    | cons a rest => rw [run] at h; cases h
  | succ f ih =>
    intro l s s' h1 h2 h
    cases l with
    | nil => rw [run] at h; cases h; exact ⟨h1, h2⟩
    | cons a rest =>
      cases a with
      | simple v =>
        rw [run] at h
        cases hv : execSimple s v with
        | error e => rw [hv] at h; cases h
        | ok s1 =>
          rw [hv] at h
          have hi := exec_inv s s1 v h1 h2 hv
          exact ih rest s1 s' hi.1.1 hi.1.2 h
      | loop b =>
        rw [run] at h
        by_cases hc : memGet s s.pointer = .int 0
        · rw [if_pos hc] at h
          exact ih rest s s' h1 h2 h
        · rw [if_neg hc] at h
          cases hb : run f s b with
          | none => rw [hb] at h; cases h
          | some r =>
            cases r with
            | error e => rw [hb] at h; cases h
            | ok s1 =>
              rw [hb] at h
              have hi := ih b s s1 h1 h2 hb
              exact ih (.loop b :: rest) s1 s' hi.1 hi.2 h

/-! ## Claim theorems: executor -/

/-- C1: a `Loop` node repeatedly executes its body in full while the cell
at the current data pointer is non-zero, re-testing at the current
(possibly moved) pointer after each complete body execution; and the
program `[LoopStart, DecrementValue, LoopEnd]` — markers `！？！！？！`,
parsing to the tree `[Ast.loop [Ast.simple "！！"]]` — started with cell
value 3 terminates after exactly 3 body executions (the cell passes
3, 2, 1, with the test non-zero before each and zero after the third)
leaving the cell at 0. -/
theorem loop_reruns_body_while_cell_nonzero :
    (∀ (f : Nat) (s : PState) (b rest : List Ast),
      memGet s s.pointer = JSVal.int 0 →
      run (f + 1) s (Ast.loop b :: rest) = run f s rest) ∧
    (∀ (f : Nat) (s : PState) (b rest : List Ast) (s' : PState),
      memGet s s.pointer ≠ JSVal.int 0 → run f s b = some (.ok s') →
      run (f + 1) s (Ast.loop b :: rest) = run f s' (Ast.loop b :: rest)) ∧
    (run 1 (cellState 3) [Ast.simple "！！"] = some (.ok (cellState 2)) ∧
     run 1 (cellState 2) [Ast.simple "！！"] = some (.ok (cellState 1)) ∧
     run 1 (cellState 1) [Ast.simple "！！"] = some (.ok (cellState 0))) ∧
    (memGet (cellState 3) (cellState 3).pointer ≠ JSVal.int 0 ∧
     memGet (cellState 2) (cellState 2).pointer ≠ JSVal.int 0 ∧
     memGet (cellState 1) (cellState 1).pointer ≠ JSVal.int 0 ∧
     memGet (cellState 0) (cellState 0).pointer = JSVal.int 0) ∧
    run 4 (cellState 3) [Ast.loop [Ast.simple "！！"]] = some (.ok (cellState 0)) ∧
    parse ['！', '？', '！', '！', '？', '！'] =
      some (.ok [Ast.loop [Ast.simple "！！"]]) := by
  refine ⟨fun f s b rest h => ?_, fun f s b rest s' h h2 => ?_, ?_, ?_, ?_, ?_⟩
  · rw [run, if_pos h]
  · rw [run, if_neg h, h2]
  · exact ⟨rfl, rfl, rfl⟩
  · exact ⟨by decide, by decide, by decide, by decide⟩
  · rfl
  · rfl

/-- Witness for C1 at a concrete input: one unrolling of the loop on the
cell-3 state via the theorem's body-then-retest clause. -/
theorem loop_reruns_body_while_cell_nonzero_witness :
    run 4 (cellState 3) [Ast.loop [Ast.simple "！！"]] =
      run 3 (cellState 2) [Ast.loop [Ast.simple "！！"]] :=
  loop_reruns_body_while_cell_nonzero.2.1 3 (cellState 3) [Ast.simple "！！"] []
    (cellState 2) (by decide) rfl

/-- C8: `INCREMENT_POINTER` moves the pointer right by one and appends
exactly one zero cell (converting the sentinel and pushing a fresh one)
precisely when the pointer thereby moves past the last integer cell; on a
fresh state, `IncrementPointer` then `Output` succeeds and outputs char
code 0. -/
theorem incrementPointer_grows_tape_with_zero :
    (∀ (s : PState) (ints : List Int),
      s.memory = ints.map JSVal.int ++ [JSVal.null] →
      s.pointer < (ints.length : Int) →
      PropsOK s →
      execSimple s "。？" = .ok { s with
        pointer := s.pointer + 1,
        memory := if s.pointer + 1 = (ints.length : Int)
          then ints.map JSVal.int ++ [JSVal.int 0, JSVal.null] else s.memory }) ∧
    run 2 freshState [Ast.simple "。？", Ast.simple "！。"] =
      some (.ok ⟨1, [JSVal.int 0, JSVal.int 0, JSVal.null], [], [0]⟩) :=
  ⟨execSimple_incP, rfl⟩

/-- Witness for C8 on the fresh state (`ints = [0]`). -/
theorem incrementPointer_grows_tape_with_zero_witness :
    execSimple freshState "。？" = .ok { freshState with
      pointer := freshState.pointer + 1,
      memory := if freshState.pointer + 1 = (([0] : List Int).length : Int)
        then ([0] : List Int).map JSVal.int ++ [JSVal.int 0, JSVal.null]
        else freshState.memory } :=
  incrementPointer_grows_tape_with_zero.1 freshState [0] rfl (by decide)
    (by intro p hp; simp [freshState] at hp)

/-- C10: from the fresh state `[0, null]` with pointer 0, every executed
instruction sequence keeps the memory as integer cells followed by
exactly one trailing `null` sentinel with the pointer strictly before the
sentinel, and `INCREMENT_POINTER` is the only instruction that changes
the tape's length — when it grows the tape it does so by exactly one
zero-valued cell (before the fresh sentinel). -/
theorem memory_shape_invariant :
    (InvShape freshState ∧ PropsOK freshState) ∧
    (∀ (f : Nat) (l : List Ast) (s s' : PState),
      InvShape s → PropsOK s → run f s l = some (.ok s') →
      InvShape s' ∧ PropsOK s') ∧
    (∀ (s s' : PState) (v : String), InvShape s → PropsOK s →
      execSimple s v = .ok s' →
      (v ≠ "。？" → s'.memory.length = s.memory.length) ∧
      (v = "。？" → s'.memory = s.memory ∨
        s'.memory = s.memory.dropLast ++ [JSVal.int 0, JSVal.null])) := by
  refine ⟨⟨⟨[0], rfl, by decide⟩, ?_⟩, run_inv, fun s s' v h1 h2 h3 => (exec_inv s s' v h1 h2 h3).2⟩
  intro p hp
  simp [freshState] at hp

/-- Witness for C10: the preservation clause applied to the empty
instruction list on the fresh state. -/
theorem memory_shape_invariant_witness : InvShape freshState ∧ PropsOK freshState :=
  memory_shape_invariant.2.1 1 [] freshState freshState
    ⟨[0], rfl, by decide⟩ (by intro p hp; simp [freshState] at hp) rfl

/-! ## Claim theorems: lexer -/

/-- C2 (the code diverges): on the input `うん` — a source text ending in
a proper front part of a valid token — one iteration of the lexer's
`while` loop neither recognises anything, nor raises an error, nor
advances the cursor, so `tokenize` never returns however much fuel its
loop is given: the js runs forever. -/
theorem tokenize_diverges_on_truncated_token :
    tokStep ['う', 'ん'] 0 [] = .cont 0 [] ∧
    ∀ fuel, tokenize fuel ['う', 'ん'] = none := by
  refine ⟨rfl, fun fuel => ?_⟩
  show tokRun fuel ['う', 'ん'] 0 [] = none
  induction fuel with
  | zero => rfl
  | succ f ih =>
    rw [tokRun]
    exact ih

/-- C6 (the error branch can be skipped): the lexer does report the
offending character with its 1-based position when the invalid-token
check finds one — on `うんちあ` it fails with `invalidToken 'あ' 4` — but
on `うん`, text that is neither whitespace nor a comment nor a valid
4-character token, the check finds no positionally-invalid character,
raises nothing, and leaves the cursor in place instead of failing with
`InvalidToken`. -/
theorem lexer_invalid_token_gap :
    tokStep "うんちあ".toList 0 [] = .err (.invalidToken 'あ' 4) ∧
    tokStep ['う', 'ん'] 0 [] = .cont 0 [] ∧
    tokenize 50 ['う', 'ん'] = none := by
  exact ⟨rfl, rfl, rfl⟩

/-! ## Parser lemmas -/

theorem pairsOf_cons_inv {X : List Char} {p : String} {ps : List String}
    (h : pairsOf X = p :: ps) :
    ∃ a b r, X = a :: b :: r ∧ p = String.mk [a, b] ∧ pairsOf r = ps := by
  match X with
  | [] => exact absurd h (by simp [pairsOf])
  | [a] => exact absurd h (by simp [pairsOf])
  | a :: b :: r =>
    rw [pairsOf] at h
    exact ⟨a, b, r, rfl, (List.cons.injEq _ _ _ _ ▸ h).1.symm,
      (List.cons.injEq _ _ _ _ ▸ h).2⟩

theorem pairsOf_length : ∀ X : List Char, X.length % 2 = 0 →
    2 * (pairsOf X).length = X.length
  | [], _ => rfl
  | [a], h => by simp at h
  | a :: b :: r, h => by
    have := pairsOf_length r (by simp at h; omega)
    rw [pairsOf]
    simp only [List.length_cons]
    omega

theorem pairsOf_nil_even {X : List Char} (h : pairsOf X = [])
    (he : X.length % 2 = 0) : X = [] := by
  match X with
  | [] => rfl
  | [a] => simp at he
  | a :: b :: r => rw [pairsOf] at h; cases h

theorem drop_cons_lt {ts : List Char} {c : Nat} {x : Char} {r : List Char}
    (h : ts.drop c = x :: r) : c < ts.length := by
  by_contra hle
  rw [List.drop_eq_nil_of_le (by omega)] at h
  cases h

theorem drop_cons2 {ts : List Char} {c : Nat} {a b : Char} {r : List Char}
    (h : ts.drop c = a :: b :: r) : ts.drop (c + 2) = r := by
  have h2 : ts.drop (c + 2) = (ts.drop c).drop 2 := by
    rw [List.drop_drop]
  rw [h2, h]
  rfl

theorem astsFrom_iff (ts : List Char) : ∀ l : List Ast,
    AstsFrom ts l ↔ ∀ a ∈ l, AstFrom ts a
  | [] => by simp [AstsFrom]
  | a :: rest => by
    rw [AstsFrom, astsFrom_iff ts rest]
    constructor
    · rintro ⟨h1, h2⟩ x hx
      rcases List.mem_cons.mp hx with h | h
      · rw [h]; exact h1
      · exact h2 x h
    · intro h
      exact ⟨h a (by simp), fun x hx => h x (by simp [hx])⟩

theorem exists_cons2_of_len {X : List Char} (h : 2 ≤ X.length) :
    ∃ x y r, X = x :: y :: r := by
  match X with
  | [] => simp at h
  | [a] => simp at h
  | a :: b :: r => exact ⟨a, b, r, rfl⟩

/-- Facts about every successful `parseLoop` call: the cursor never
moves backwards; the call ends either with the input exhausted or by the
`？！` break that decrements the depth by one; and (over an even-length
token list, from an even cursor) every node built is a full 2-marker
pair that is none of the four intercepted pairs. -/
theorem parseLoop_ok_facts (fuel : Nat) : ∀ (ts : List Char) (c d : Nat)
    (acc l : List Ast) (c' d' : Nat),
    parseLoop fuel ts c d acc = some (.ok (l, c', d')) →
    (c ≤ c' ∧ (ts.length ≤ c' ∨ d' + 1 = d)) ∧
    (ts.length % 2 = 0 → (c % 2 = 0 ∨ ts.length ≤ c) →
      (∀ a ∈ acc, AstFrom ts a) →
      (∀ a ∈ l, AstFrom ts a) ∧ (c' % 2 = 1 ∨ ts.length ≤ c')) := by
  induction fuel with
  | zero => intro ts c d acc l c' d' h; rw [parseLoop] at h; cases h
  | succ f ih =>
    intro ts c d acc l c' d' h
    simp only [parseLoop] at h
    by_cases hc : c < ts.length
    · rw [if_pos hc] at h
      by_cases h1 : pairStr (ts.drop c) = "？？"
      · rw [if_pos h1] at h; cases h
      · rw [if_neg h1] at h
        by_cases h2 : pairStr (ts.drop c) = "。！"
        · rw [if_pos h2] at h; cases h
        · rw [if_neg h2] at h
          by_cases h3 : pairStr (ts.drop c) = "？！"
          · rw [if_pos h3] at h
            by_cases h4 : 0 < d
            · rw [if_pos h4] at h
              simp only [Option.some.injEq, Except.ok.injEq, Prod.mk.injEq] at h
              obtain ⟨hl, hc', hd'⟩ := h
              subst hl
              refine ⟨⟨by omega, by omega⟩, fun heven hpar hacc => ?_⟩
              exact ⟨fun a ha => hacc a (List.mem_reverse.mp ha), by omega⟩
            · rw [if_neg h4] at h; cases h
          · rw [if_neg h3] at h
            by_cases h4 : pairStr (ts.drop c) = "！？"
            · rw [if_pos h4] at h
              rcases hb : parseLoop f ts (c + 2) (d + 1) [] with _ | rb
              · rw [hb] at h; cases h
              · rcases rb with e | ⟨bl, bc, bd⟩
                · rw [hb] at h; cases h
                · rw [hb] at h
                  have hcont : parseLoop f ts (bc + 1) bd (.loop bl :: acc) =
                      some (.ok (l, c', d')) := h
                  have ihb := ih ts (c + 2) (d + 1) [] bl bc bd hb
                  have ihc := ih ts (bc + 1) bd (.loop bl :: acc) l c' d' hcont
                  refine ⟨⟨by omega, ?_⟩, fun heven hpar hacc => ?_⟩
                  · rcases ihc.1.2 with hx | hx
                    · exact Or.inl hx
                    · rcases ihb.1.2 with hy | hy
                      · exact Or.inl (by omega)
                      · exact Or.inr (by omega)
                  · have hceven : c % 2 = 0 := by omega
                    have ihb2 := ihb.2 heven (by omega) (by simp)
                    refine ihc.2 heven ?_ (fun a ha => ?_)
                    · rcases ihb2.2 with hy | hy
                      · exact Or.inl (by omega)
                      · exact Or.inr (by omega)
                    · rcases List.mem_cons.mp ha with hh | hh
                      · rw [hh]
                        show AstsFrom ts bl
                        exact (astsFrom_iff ts bl).mpr ihb2.1
                      · exact hacc a hh
            · rw [if_neg h4] at h
              have hcont : parseLoop f ts (c + 2) d
                  (.simple (pairStr (ts.drop c)) :: acc) = some (.ok (l, c', d')) := h
              have ihc := ih ts (c + 2) d (.simple (pairStr (ts.drop c)) :: acc) l c' d' hcont
              refine ⟨⟨by omega, ihc.1.2⟩, fun heven hpar hacc => ?_⟩
              have hceven : c % 2 = 0 := by omega
              refine ihc.2 heven (by omega) (fun a ha => ?_)
              rcases List.mem_cons.mp ha with hh | hh
              · rw [hh]
                have hlen2 : 2 ≤ (ts.drop c).length := by
                  rw [List.length_drop]
                  omega
                obtain ⟨x, y, r, hdx⟩ := exists_cons2_of_len hlen2
                show (pairStr (ts.drop c) ≠ "？？" ∧ pairStr (ts.drop c) ≠ "。！" ∧
                  pairStr (ts.drop c) ≠ "？！" ∧ pairStr (ts.drop c) ≠ "！？") ∧
                  ∃ a b, a ∈ ts ∧ b ∈ ts ∧ pairStr (ts.drop c) = String.mk [a, b]
                refine ⟨⟨h1, h2, h3, h4⟩, x, y, ?_, ?_, by rw [hdx]; rfl⟩
                · exact List.drop_subset c ts (hdx ▸ List.mem_cons_self x _)
                · exact List.drop_subset c ts (hdx ▸ by simp)
              · exact hacc a hh
    · rw [if_neg hc] at h
      simp only [Option.some.injEq, Except.ok.injEq, Prod.mk.injEq] at h
      obtain ⟨hl, hc', hd'⟩ := h
      subst hl
      refine ⟨⟨by omega, Or.inl (by omega)⟩, fun heven hpar hacc => ?_⟩
      exact ⟨fun a ha => hacc a (List.mem_reverse.mp ha), Or.inr (by omega)⟩

/-- The fuel `parse` supplies always suffices: with more fuel than
remaining tokens, `parseLoop` never runs out. -/
theorem parseLoop_adequate (fuel : Nat) : ∀ (ts : List Char) (c d : Nat)
    (acc : List Ast), ts.length - c < fuel → parseLoop fuel ts c d acc ≠ none := by
  induction fuel with
  | zero => intro ts c d acc h; omega
  | succ f ih =>
    intro ts c d acc h heq
    simp only [parseLoop] at heq
    by_cases hc : c < ts.length
    · rw [if_pos hc] at heq
      by_cases h1 : pairStr (ts.drop c) = "？？"
      · rw [if_pos h1] at heq; cases heq
      · rw [if_neg h1] at heq
        by_cases h2 : pairStr (ts.drop c) = "。！"
        · rw [if_pos h2] at heq; cases heq
        · rw [if_neg h2] at heq
          by_cases h3 : pairStr (ts.drop c) = "？！"
          · rw [if_pos h3] at heq
            by_cases h4 : 0 < d
            · rw [if_pos h4] at heq; cases heq
            · rw [if_neg h4] at heq; cases heq
          · rw [if_neg h3] at heq
            by_cases h4 : pairStr (ts.drop c) = "！？"
            · rw [if_pos h4] at heq
              rcases hb : parseLoop f ts (c + 2) (d + 1) [] with _ | rb
              · exact ih ts (c + 2) (d + 1) [] (by omega) hb
              · rcases rb with e | ⟨bl, bc, bd⟩
                · rw [hb] at heq; cases heq
                · rw [hb] at heq
                  have hmono := (parseLoop_ok_facts f ts (c + 2) (d + 1) [] bl bc bd hb).1.1
                  exact ih ts (bc + 1) bd (.loop bl :: acc) (by omega) heq
            · rw [if_neg h4] at heq
              exact ih ts (c + 2) d (.simple (pairStr (ts.drop c)) :: acc) (by omega) heq
    · rw [if_neg hc] at heq; cases heq

/-- Two sufficient fuels give the same `parseLoop` result. -/
theorem parseLoop_fuel_irrel (f1 : Nat) : ∀ (f2 : Nat) (ts : List Char) (c d : Nat)
    (acc : List Ast), ts.length - c < f1 → ts.length - c < f2 →
    parseLoop f1 ts c d acc = parseLoop f2 ts c d acc := by
  induction f1 with
  | zero => intro f2 ts c d acc h1 h2; omega
  | succ f ih =>
    intro f2 ts c d acc h1 h2
    rcases f2 with _ | g
    · omega
    · simp only [parseLoop]
      by_cases hc : c < ts.length
      · rw [if_pos hc, if_pos hc]
        by_cases hi1 : pairStr (ts.drop c) = "？？"
        · rw [if_pos hi1, if_pos hi1]
        · rw [if_neg hi1, if_neg hi1]
          by_cases hi2 : pairStr (ts.drop c) = "。！"
          · rw [if_pos hi2, if_pos hi2]
          · rw [if_neg hi2, if_neg hi2]
            by_cases hi3 : pairStr (ts.drop c) = "？！"
            · rw [if_pos hi3, if_pos hi3]
            · rw [if_neg hi3, if_neg hi3]
              by_cases hi4 : pairStr (ts.drop c) = "！？"
              · rw [if_pos hi4, if_pos hi4]
                have hb : parseLoop f ts (c + 2) (d + 1) [] =
                    parseLoop g ts (c + 2) (d + 1) [] :=
                  ih g ts (c + 2) (d + 1) [] (by omega) (by omega)
                rw [← hb]
                rcases hv : parseLoop f ts (c + 2) (d + 1) [] with _ | rb
                · rfl
                · rcases rb with e | ⟨bl, bc, bd⟩
                  · rfl
                  · have hmono := (parseLoop_ok_facts f ts (c + 2) (d + 1) [] bl bc bd hv).1.1
                    exact ih g ts (bc + 1) bd (.loop bl :: acc) (by omega) (by omega)
              · rw [if_neg hi4, if_neg hi4]
                exact ih g ts (c + 2) d (.simple (pairStr (ts.drop c)) :: acc)
                  (by omega) (by omega)
      · rw [if_neg hc, if_neg hc]

/-- `parse` never runs out of fuel: its result is always `some`. -/
theorem parse_total (ts : List Char) : parse ts ≠ none := by
  rw [parse]
  by_cases he : ts.length % 2 ≠ 0
  · rw [if_pos he]; simp
  · rw [if_neg he]
    rcases hv : parseLoop (ts.length + 1) ts 0 0 [] with _ | rb
    · exact absurd hv (parseLoop_adequate (ts.length + 1) ts 0 0 [] (by omega))
    · rcases rb with e | ⟨l, c', d'⟩ <;> simp

/-- One `parseLoop` iteration, cursor past the input: return the block. -/
theorem parseLoop_exit_step (f : Nat) (ts : List Char) (c d : Nat) (acc : List Ast)
    (h : ts.length ≤ c) :
    parseLoop (f + 1) ts c d acc = some (.ok (acc.reverse, c, d)) := by
  rw [parseLoop, if_neg (by omega)]

/-- One `parseLoop` iteration reading a `！？` pair whose recursive body
call returns: push the loop node and continue after it. -/
theorem parseLoop_loopStart_step (f : Nat) (ts : List Char) (c d : Nat) (acc : List Ast)
    (hclen : c < ts.length) (hpair : pairStr (ts.drop c) = "！？")
    {bl : List Ast} {bc bd : Nat}
    (hbody : parseLoop f ts (c + 2) (d + 1) [] = some (.ok (bl, bc, bd))) :
    parseLoop (f + 1) ts c d acc = parseLoop f ts (bc + 1) bd (.loop bl :: acc) := by
  simp only [parseLoop]
  rw [if_pos hclen, hpair, if_neg (by decide), if_neg (by decide), if_neg (by decide),
    if_pos rfl, hbody]

/-- Shifting a whole `parseLoop` run two tokens right (under one more
open loop): the run never looks below its starting cursor, so adding two
tokens in front and one ambient loop level reproduces it verbatim. -/
theorem parseLoop_shift (f : Nat) : ∀ (ts : List Char) (x y : Char) (c d : Nat)
    (acc l : List Ast) (c' d' : Nat),
    parseLoop f ts c d acc = some (.ok (l, c', d')) →
    parseLoop f (x :: y :: ts) (c + 2) (d + 1) acc = some (.ok (l, c' + 2, d' + 1)) := by
  induction f with
  | zero => intro ts x y c d acc l c' d' h; rw [parseLoop] at h; cases h
  | succ f ih =>
    intro ts x y c d acc l c' d' h
    simp only [parseLoop] at h ⊢
    have hdrop : (x :: y :: ts).drop (c + 2) = ts.drop c := rfl
    have hlen : (x :: y :: ts).length = ts.length + 2 := rfl
    rw [hdrop, hlen]
    by_cases hc : c < ts.length
    · rw [if_pos hc] at h
      rw [if_pos (by omega)]
      by_cases h1 : pairStr (ts.drop c) = "？？"
      · rw [if_pos h1] at h; cases h
      · rw [if_neg h1] at h
        rw [if_neg h1]
        by_cases h2 : pairStr (ts.drop c) = "。！"
        · rw [if_pos h2] at h; cases h
        · rw [if_neg h2] at h
          rw [if_neg h2]
          by_cases h3 : pairStr (ts.drop c) = "？！"
          · rw [if_pos h3] at h
            rw [if_pos h3]
            by_cases h4 : 0 < d
            · rw [if_pos h4] at h
              rw [if_pos (by omega)]
              simp only [Option.some.injEq, Except.ok.injEq, Prod.mk.injEq] at h ⊢
              obtain ⟨hl, hc', hd'⟩ := h
              exact ⟨hl, by omega, by omega⟩
            · rw [if_neg h4] at h; cases h
          · rw [if_neg h3] at h
            rw [if_neg h3]
            by_cases h4 : pairStr (ts.drop c) = "！？"
            · rw [if_pos h4] at h
              rw [if_pos h4]
              rcases hb : parseLoop f ts (c + 2) (d + 1) [] with _ | rb
              · rw [hb] at h; cases h
              · rcases rb with e | ⟨bl, bc, bd⟩
                · rw [hb] at h; cases h
                · rw [hb] at h
                  have hb' := ih ts x y (c + 2) (d + 1) [] bl bc bd hb
                  rw [hb']
                  exact ih ts x y (bc + 1) bd (.loop bl :: acc) l c' d' h
            · rw [if_neg h4] at h
              rw [if_neg h4]
              exact ih ts x y (c + 2) d (.simple (pairStr (ts.drop c)) :: acc) l c' d' h
    · rw [if_neg hc] at h
      rw [if_neg (by omega)]
      simp only [Option.some.injEq, Except.ok.injEq, Prod.mk.injEq] at h ⊢
      obtain ⟨hl, hc', hd'⟩ := h
      exact ⟨hl, by omega, by omega⟩

/-- A balanced pair block is consumed in one sweep: `parseLoop` started
anywhere a balanced block begins builds its nodes (one pair per simple
node, two plus the body for each loop) and continues right after the
block, at the same depth.  `ns` is the node list the block produces. -/
theorem balanced_consumed : ∀ (ps : List String), Balanced ps →
    ∃ ns : List Ast, countL ns = ps.length ∧
      ∀ (ts : List Char) (c d : Nat) (acc : List Ast) (qs : List String),
        pairsOf (ts.drop c) = ps ++ qs →
        (parseLoop (ts.length + 1) ts c d acc =
          parseLoop (ts.length + 1) ts (c + 2 * ps.length) d (ns.reverse ++ acc)) ∧
        pairsOf (ts.drop (c + 2 * ps.length)) = qs := by
  intro ps hb
  induction hb with
  | nil =>
    refine ⟨[], rfl, fun ts c d acc qs hp => ⟨by simp, by simpa using hp⟩⟩
  | simple p ps h1 h2 h3 h4 hbal ih =>
    obtain ⟨ns, hcount, hrun⟩ := ih
    refine ⟨.simple p :: ns, ?_, fun ts c d acc qs hp => ?_⟩
    · simp only [countL, countA, List.length_cons, hcount]
      omega
    · have hp' : pairsOf (ts.drop c) = p :: (ps ++ qs) := by simpa using hp
      obtain ⟨a, b, r, hx, hpv, hpr⟩ := pairsOf_cons_inv hp'
      have hclen : c < ts.length := drop_cons_lt hx
      have hpair : pairStr (ts.drop c) = p := by rw [hx]; exact hpv.symm
      have hdrop2 : ts.drop (c + 2) = r := drop_cons2 hx
      have step1 : parseLoop (ts.length + 1) ts c d acc =
          parseLoop ts.length ts (c + 2) d (.simple p :: acc) := by
        simp only [parseLoop]
        rw [if_pos hclen, hpair, if_neg h1, if_neg h2, if_neg h4, if_neg h3]
      have step2 : parseLoop ts.length ts (c + 2) d (.simple p :: acc) =
          parseLoop (ts.length + 1) ts (c + 2) d (.simple p :: acc) :=
        parseLoop_fuel_irrel ts.length (ts.length + 1) ts (c + 2) d _
          (by omega) (by omega)
      obtain ⟨hrec, hq⟩ := hrun ts (c + 2) d (.simple p :: acc) qs
        (by rw [hdrop2]; exact hpr)
      have harith : c + 2 * (p :: ps).length = c + 2 + 2 * ps.length := by
        simp only [List.length_cons]
        omega
      constructor
      · have hacc2 : (Ast.simple p :: ns).reverse ++ acc =
            ns.reverse ++ (Ast.simple p :: acc) := by simp
        rw [harith, hacc2]
        exact (step1.trans step2).trans hrec
      · rw [harith]
        exact hq
  | loop body rest hbody hrest ihb ihr =>
    obtain ⟨nb, hcb, hrb⟩ := ihb
    obtain ⟨nr, hcr, hrr⟩ := ihr
    refine ⟨.loop nb :: nr, ?_, fun ts c d acc qs hp => ?_⟩
    · simp only [countL, countA, List.length_cons, List.length_append, hcb, hcr]
      omega
    · have hp' : pairsOf (ts.drop c) = "！？" :: (body ++ "？！" :: (rest ++ qs)) := by
        simpa using hp
      obtain ⟨a, b, r, hx, hpv, hpr⟩ := pairsOf_cons_inv hp'
      have hclen : c < ts.length := drop_cons_lt hx
      have hpair : pairStr (ts.drop c) = "！？" := by rw [hx]; exact hpv.symm
      have hdrop2 : ts.drop (c + 2) = r := drop_cons2 hx
      obtain ⟨hrecb, hqb⟩ := hrb ts (c + 2) (d + 1) [] ("？！" :: (rest ++ qs))
        (by rw [hdrop2]; exact hpr)
      obtain ⟨a2, b2, r2, hx2, hpv2, hpr2⟩ := pairsOf_cons_inv hqb
      have hclen2 : c + 2 + 2 * body.length < ts.length := drop_cons_lt hx2
      have hpair2 : pairStr (ts.drop (c + 2 + 2 * body.length)) = "？！" := by
        rw [hx2]; exact hpv2.symm
      have hdrop4 : ts.drop (c + 2 + 2 * body.length + 2) = r2 := drop_cons2 hx2
      have hbreak : parseLoop (ts.length + 1) ts (c + 2 + 2 * body.length) (d + 1)
          (nb.reverse ++ []) = some (.ok (nb, c + 2 + 2 * body.length + 1, d)) := by
        simp only [parseLoop]
        rw [if_pos hclen2, hpair2, if_neg (by decide), if_neg (by decide), if_pos rfl,
          if_pos (by omega)]
        simp
      have hbody' : parseLoop (ts.length + 1) ts (c + 2) (d + 1) [] =
          some (.ok (nb, c + 2 + 2 * body.length + 1, d)) := by
        rw [hrecb]
        exact hbreak
      have step1 : parseLoop (ts.length + 1) ts c d acc =
          parseLoop ts.length ts (c + 2 + 2 * body.length + 2) d (.loop nb :: acc) := by
        simp only [parseLoop]
        rw [if_pos hclen, hpair, if_neg (by decide), if_neg (by decide),
          if_neg (by decide), if_pos rfl]
        rw [parseLoop_fuel_irrel ts.length (ts.length + 1) ts (c + 2) (d + 1) []
          (by omega) (by omega), hbody']
      have step2 : parseLoop ts.length ts (c + 2 + 2 * body.length + 2) d
          (.loop nb :: acc) = parseLoop (ts.length + 1) ts
          (c + 2 + 2 * body.length + 2) d (.loop nb :: acc) :=
        parseLoop_fuel_irrel ts.length (ts.length + 1) ts _ d _ (by omega) (by omega)
      obtain ⟨hrecr, hqr⟩ := hrr ts (c + 2 + 2 * body.length + 2) d (.loop nb :: acc) qs
        (by rw [hdrop4]; exact hpr2)
      have harith : c + 2 * ("！？" :: body ++ "？！" :: rest).length =
          c + 2 + 2 * body.length + 2 + 2 * rest.length := by
        simp only [List.length_cons, List.length_append]
        omega
      constructor
      · have hacc2 : (Ast.loop nb :: nr).reverse ++ acc =
            nr.reverse ++ (Ast.loop nb :: acc) := by simp
        rw [harith, hacc2]
        exact (step1.trans step2).trans hrecr
      · rw [harith]
        exact hqr

/-- Any error-free pair sequence — matched loops plus possibly unmatched
`！？`s — parses to a successful result that consumes the input to its
end, whatever the ambient depth: an unmatched `LoopStart` is never
diagnosed. -/
theorem dangling_runs_ok : ∀ (ps : List String), Dangling ps →
    ∀ (ts : List Char) (c d : Nat) (acc : List Ast),
      ts.length % 2 = 0 → c % 2 = 0 → pairsOf (ts.drop c) = ps →
      ∃ l c' d', parseLoop (ts.length + 1) ts c d acc = some (.ok (l, c', d')) ∧
        ts.length ≤ c' := by
  intro ps hd
  induction hd with
  | bal ps hb =>
    intro ts c d acc hlen hc hp
    obtain ⟨ns, hcount, hrun⟩ := balanced_consumed ps hb
    obtain ⟨heq, hq⟩ := hrun ts c d acc [] (by simpa using hp)
    have hnil : ts.drop (c + 2 * ps.length) = [] := by
      refine pairsOf_nil_even hq ?_
      rw [List.length_drop]
      omega
    have hge : ts.length ≤ c + 2 * ps.length := by
      have := congrArg List.length hnil
      rw [List.length_drop] at this
      simp at this
      omega
    refine ⟨(ns.reverse ++ acc).reverse, c + 2 * ps.length, d, ?_, hge⟩
    rw [heq, parseLoop, if_neg (by omega)]
  | more ps rest hb hdr ih =>
    intro ts c d acc hlen hc hp
    obtain ⟨ns, hcount, hrun⟩ := balanced_consumed ps hb
    obtain ⟨heq, hq⟩ := hrun ts c d acc ("！？" :: rest) (by rw [hp])
    obtain ⟨a, b, r, hx, hpv, hpr⟩ := pairsOf_cons_inv hq
    have hc1 : c + 2 * ps.length < ts.length := drop_cons_lt hx
    have hpair : pairStr (ts.drop (c + 2 * ps.length)) = "！？" := by
      rw [hx]; exact hpv.symm
    have hdrop2 : ts.drop (c + 2 * ps.length + 2) = r := drop_cons2 hx
    obtain ⟨bl, bc, bd, hbrun, hbge⟩ := ih ts (c + 2 * ps.length + 2) (d + 1) []
      hlen (by omega) (by rw [hdrop2]; exact hpr)
    refine ⟨(Ast.loop bl :: (ns.reverse ++ acc)).reverse, bc + 1, bd, ?_, by omega⟩
    rw [heq]
    simp only [parseLoop]
    rw [if_pos hc1, hpair, if_neg (by decide), if_neg (by decide), if_neg (by decide),
      if_pos rfl]
    rw [parseLoop_fuel_irrel ts.length (ts.length + 1) ts (c + 2 * ps.length + 2)
      (d + 1) [] (by omega) (by omega), hbrun]
    show parseLoop ts.length ts (bc + 1) bd (Ast.loop bl :: (ns.reverse ++ acc)) = _
    rw [parseLoop_fuel_irrel ts.length (ts.length + 1) ts (bc + 1) bd _
      (by omega) (by omega), parseLoop, if_neg (by omega)]

/-- C3: an unmatched `LoopStart` is not an error.  First, any marker
sequence whose pairs are a balanced block, an unmatched `！？` and an
error-free tail (`OpenSeq`: it ends with at least one loop still open)
parses successfully, with no "unclosed loop" diagnosis.  Second, putting
an unmatched `LoopStart` pair in front of any successfully parsed
program again parses successfully and returns exactly one `Loop` node
whose body is everything that followed, parsed up to the end of the
input. -/
theorem unmatched_loopStart_not_diagnosed :
    (∀ ts : List Char, ts.length % 2 = 0 → OpenSeq (pairsOf ts) →
      ∃ l, parse ts = some (.ok l)) ∧
    (∀ (ts : List Char) (l : List Ast), parse ts = some (.ok l) →
      parse ('！' :: '？' :: ts) = some (.ok [.loop l])) := by
  constructor
  · intro ts hlen hop
    obtain ⟨b, r, hb, hr, hps⟩ := hop
    have hd : Dangling (pairsOf ts) := hps ▸ Dangling.more b r hb hr
    obtain ⟨l, c', d', hrun, hge⟩ := dangling_runs_ok (pairsOf ts) hd ts 0 0 []
      hlen rfl (by rw [List.drop_zero])
    refine ⟨l, ?_⟩
    rw [parse, if_neg (by omega)]
    rw [hrun]
  · intro ts l hp
    have hlen : ts.length % 2 = 0 := by
      by_contra hodd
      rw [parse, if_pos hodd] at hp
      cases hp
    rw [parse, if_neg (by omega)] at hp
    rcases hv : parseLoop (ts.length + 1) ts 0 0 [] with _ | rb
    · rw [hv] at hp; cases hp
    · rcases rb with e | ⟨l0, c0, d0⟩
      · rw [hv] at hp; cases hp
      · rw [hv] at hp
        have hl0 : l0 = l := by cases hp; rfl
        subst hl0
        have hfacts := parseLoop_ok_facts (ts.length + 1) ts 0 0 [] l0 c0 d0 hv
        have hc0 : ts.length ≤ c0 := by
          rcases hfacts.1.2 with hx | hx
          · exact hx
          · omega
        have hv2 : parseLoop (ts.length + 2) ts 0 0 [] = some (.ok (l0, c0, d0)) := by
          rw [← parseLoop_fuel_irrel (ts.length + 1) (ts.length + 2) ts 0 0 []
            (by omega) (by omega)]
          exact hv
        have hshift := parseLoop_shift (ts.length + 2) ts '！' '？' 0 0 [] l0 c0 d0 hv2
        have hlen2 : ('！' :: '？' :: ts).length = ts.length + 2 := rfl
        rw [parse, if_neg (by rw [hlen2]; omega)]
        have hsh2 : parseLoop (('！' :: '？' :: ts).length) ('！' :: '？' :: ts)
            (0 + 2) (0 + 1) [] = some (.ok (l0, c0 + 2, d0 + 1)) := by
          show parseLoop (ts.length + 2) ('！' :: '？' :: ts) (0 + 2) (0 + 1) [] = _
          exact hshift
        have h1 := parseLoop_loopStart_step (('！' :: '？' :: ts).length)
          ('！' :: '？' :: ts) 0 0 [] (by simp) rfl hsh2
        have h2 : parseLoop (('！' :: '？' :: ts).length) ('！' :: '？' :: ts)
            (c0 + 2 + 1) (d0 + 1) [Ast.loop l0] =
            some (.ok ([Ast.loop l0], c0 + 2 + 1, d0 + 1)) := by
          rw [parseLoop_fuel_irrel (('！' :: '？' :: ts).length)
            (('！' :: '？' :: ts).length + 1) ('！' :: '？' :: ts) (c0 + 2 + 1) (d0 + 1)
            [Ast.loop l0] (by simp; omega) (by simp; omega)]
          exact parseLoop_exit_step _ _ _ _ _ (by simp; omega)
        rw [h1.trans h2]

/-- Witness for C3: the shortest open sequence `！？` (one unmatched
`LoopStart`) parses without error, to a single empty loop. -/
theorem unmatched_loopStart_not_diagnosed_witness :
    (∃ l, parse ['！', '？'] = some (.ok l)) ∧
    parse ['！', '？'] = some (.ok [.loop []]) :=
  ⟨unmatched_loopStart_not_diagnosed.1 ['！', '？'] rfl
    ⟨[], [], Balanced.nil, Dangling.bal [] Balanced.nil, rfl⟩,
   unmatched_loopStart_not_diagnosed.2 [] [] rfl⟩

/-! ## Claim theorems: parser / executor interplay -/

theorem execSimple_ok_of_mem (s : PState) (v : String) (hv : v ∈ execPairs) :
    ∃ s', execSimple s v = .ok s' := by
  simp only [execPairs, List.mem_cons, List.mem_singleton] at hv
  rcases hv with h | h | h | h | h | h
  · subst h
    rcases hv2 : execSimple s "。？" with e | s'
    · simp only [execSimple, if_true] at hv2
      split at hv2
      · cases hv2
      · cases hv2
    · exact ⟨s', rfl⟩
  · subst h; exact ⟨_, rfl⟩
  · subst h; exact ⟨_, rfl⟩
  · subst h; exact ⟨_, rfl⟩
  · subst h; exact ⟨_, rfl⟩
  · cases h

/-- A tree of executable nodes never reaches the executor's
`UndefinedInstruction` branch. -/
theorem run_no_err (f : Nat) : ∀ (l : List Ast) (s : PState), astsOK l = true →
    ∀ e, run f s l ≠ some (.error e) := by
  induction f with
  | zero =>
    intro l s hok e h
    cases l with
    | nil => rw [run] at h; cases h
    | cons a rest => rw [run] at h; cases h
  | succ f ih =>
    intro l s hok e h
    cases l with
    | nil => rw [run] at h; cases h
    | cons a rest =>
      cases a with
      | simple v =>
        rw [run] at h
        have hok' : astOK (.simple v) = true ∧ astsOK rest = true := by
          simpa [astsOK, Bool.and_eq_true] using hok
        obtain ⟨s', hs'⟩ := execSimple_ok_of_mem s v (by
          have h2 := hok'.1
          rw [astOK] at h2
          exact of_decide_eq_true h2)
        rw [hs'] at h
        exact ih rest s' hok'.2 e h
      | loop b =>
        rw [run] at h
        have hok' : astsOK b = true ∧ astsOK rest = true := by
          have h2 : astOK (.loop b) = true ∧ astsOK rest = true := by
            simpa [astsOK, Bool.and_eq_true] using hok
          rw [astOK] at h2
          exact h2
        by_cases hc : memGet s s.pointer = .int 0
        · rw [if_pos hc] at h
          exact ih rest s hok'.2 e h
        · rw [if_neg hc] at h
          rcases hb : run f s b with _ | rb
          · rw [hb] at h; cases h
          · rcases rb with e' | s1
            · exact absurd hb (ih b s hok'.1 e')
            · rw [hb] at h
              exact ih (.loop b :: rest) s1 hok e h

mutual

theorem astFrom_astOK (ts : List Char)
    (hm : ∀ ch ∈ ts, ch = '！' ∨ ch = '？' ∨ ch = '。') :
    ∀ a : Ast, AstFrom ts a → astOK a = true
  | .simple v, h => by
    obtain ⟨⟨h1, h2, h3, h4⟩, a, b, ha, hb, hv⟩ := h
    rw [astOK]
    subst hv
    rcases hm a ha with rfl | rfl | rfl <;> rcases hm b hb with rfl | rfl | rfl
    · rfl
    · exact absurd rfl h4
    · rfl
    · exact absurd rfl h3
    · exact absurd rfl h1
    · rfl
    · exact absurd rfl h2
    · rfl
    · rfl
  | .loop b, h => by
    rw [astOK]
    exact astsFrom_astsOK ts hm b h

theorem astsFrom_astsOK (ts : List Char)
    (hm : ∀ ch ∈ ts, ch = '！' ∨ ch = '？' ∨ ch = '。') :
    ∀ l : List Ast, AstsFrom ts l → astsOK l = true
  | [], _ => rfl
  | a :: rest, h => by
    rw [astsOK]
    obtain ⟨h1, h2⟩ := h
    rw [astFrom_astOK ts hm a h1, astsFrom_astsOK ts hm rest h2]
    rfl

end

mutual

theorem astFrom_noInput (ts : List Char) : ∀ a : Ast, AstFrom ts a → usesInput a = false
  | .simple v, h => by
    rw [usesInput]
    obtain ⟨⟨h1, h2, h3, h4⟩, _⟩ := h
    simp [h2]
  | .loop b, h => by
    rw [usesInput]
    exact astsFrom_noInputL ts b h

theorem astsFrom_noInputL (ts : List Char) :
    ∀ l : List Ast, AstsFrom ts l → usesInputL l = false
  | [], _ => rfl
  | a :: rest, h => by
    rw [usesInputL]
    obtain ⟨h1, h2⟩ := h
    rw [astFrom_noInput ts a h1, astsFrom_noInputL ts rest h2]
    rfl

end

/-- The node list a successful `parse` returns, with what
`parseLoop_ok_facts` knows about it. -/
theorem parse_ok_astFrom {ts : List Char} {l : List Ast}
    (hp : parse ts = some (.ok l)) :
    ts.length % 2 = 0 ∧ ∀ a ∈ l, AstFrom ts a := by
  have hlen : ts.length % 2 = 0 := by
    by_contra hodd
    rw [parse, if_pos hodd] at hp
    cases hp
  refine ⟨hlen, ?_⟩
  rw [parse, if_neg (by omega)] at hp
  rcases hv : parseLoop (ts.length + 1) ts 0 0 [] with _ | rb
  · rw [hv] at hp; cases hp
  · rcases rb with e | ⟨l0, c0, d0⟩
    · rw [hv] at hp; cases hp
    · rw [hv] at hp
      have hl0 : l0 = l := by cases hp; rfl
      subst hl0
      exact ((parseLoop_ok_facts (ts.length + 1) ts 0 0 [] l0 c0 d0 hv).2 hlen
        (Or.inl rfl) (by simp)).1

/-- C4: on a marker sequence (every token one of the three markers),
every `Simple` node of a successfully parsed tree carries one of the
five executable pairs (`astsOK`), and executing any such tree can never
return the executor's `UndefinedInstruction` error. -/
theorem parsed_nodes_are_executable :
    (∀ (ts : List Char) (l : List Ast),
      (∀ ch ∈ ts, ch = '！' ∨ ch = '？' ∨ ch = '。') →
      parse ts = some (.ok l) → astsOK l = true) ∧
    (∀ (l : List Ast), astsOK l = true → ∀ (f : Nat) (s : PState) (e : ExecErr),
      run f s l ≠ some (.error e)) := by
  constructor
  · intro ts l hm hp
    obtain ⟨hlen, hfrom⟩ := parse_ok_astFrom hp
    exact astsFrom_astsOK ts hm l ((astsFrom_iff ts l).mpr hfrom)
  · intro l hok f s e
    exact run_no_err f l s hok e

/-- Witness for C4: the one-instruction program `。。`. -/
theorem parsed_nodes_are_executable_witness :
    astsOK [Ast.simple "。。"] = true ∧
    run 1 freshState [Ast.simple "。。"] ≠
      some (.error (.undefinedInstruction "。。")) :=
  ⟨parsed_nodes_are_executable.1 ['。', '。'] [Ast.simple "。。"] (by decide) rfl,
   parsed_nodes_are_executable.2 [Ast.simple "。。"]
     (parsed_nodes_are_executable.1 ['。', '。'] [Ast.simple "。。"] (by decide) rfl)
     1 freshState (.undefinedInstruction "。。")⟩

/-- C5: reading the `IN` pair `。！` is a parse-time hard error
(`UnsupportedInput`); consequently no tree a successful `parse` returns
contains an `IN` node, and the executor's warn-and-skip `IN` branch —
which changes nothing: `execSimple s "。！" = .ok s` — is unreachable on
parser output. -/
theorem input_is_parse_time_error :
    (∀ (f : Nat) (ts : List Char) (c d : Nat) (acc : List Ast),
      c < ts.length → pairStr (ts.drop c) = "。！" →
      parseLoop (f + 1) ts c d acc = some (.error .unsupportedInput)) ∧
    (∀ (ts : List Char) (l : List Ast), parse ts = some (.ok l) →
      usesInputL l = false) ∧
    (∀ s : PState, execSimple s "。！" = .ok s) := by
  refine ⟨fun f ts c d acc hc hpair => ?_, fun ts l hp => ?_, fun s => rfl⟩
  · simp only [parseLoop]
    rw [if_pos hc, hpair, if_neg (by decide), if_pos rfl]
  · obtain ⟨hlen, hfrom⟩ := parse_ok_astFrom hp
    exact astsFrom_noInputL ts l ((astsFrom_iff ts l).mpr hfrom)

/-- Witness for C5: the one-pair sequence `。！` fails with
`UnsupportedInput`, and the runtime `IN` branch leaves the fresh state
unchanged. -/
theorem input_is_parse_time_error_witness :
    parseLoop 2 ['。', '！'] 0 0 [] = some (.error .unsupportedInput) ∧
    execSimple freshState "。！" = .ok freshState :=
  ⟨input_is_parse_time_error.1 1 ['。', '！'] 0 0 [] (by decide) rfl,
   input_is_parse_time_error.2.2 freshState⟩

/-- C7: a `？！` pair read with no loop open fails with
`UnmatchedLoopEnd` — and a parse error stops the pipeline before any
instruction runs, so nothing is output; with a loop open, the pair only
terminates the current block (cursor past the pair, depth down one, no
node emitted). -/
theorem unmatched_loopEnd_fails :
    (∀ (f : Nat) (ts : List Char) (c : Nat) (acc : List Ast),
      c < ts.length → pairStr (ts.drop c) = "？！" →
      parseLoop (f + 1) ts c 0 acc = some (.error .unmatchedLoopEnd)) ∧
    (∀ (f : Nat) (ts : List Char) (c d : Nat) (acc : List Ast),
      c < ts.length → pairStr (ts.drop c) = "？！" → 0 < d →
      parseLoop (f + 1) ts c d acc = some (.ok (acc.reverse, c + 1, d - 1))) ∧
    (∀ (fuel : Nat) (ts : List Char) (e : ParseErr), parse ts = some (.error e) →
      runTokens fuel ts = some (.error (.parseErr e))) := by
  refine ⟨fun f ts c acc hc hpair => ?_, fun f ts c d acc hc hpair hd => ?_,
    fun fuel ts e hp => ?_⟩
  · simp only [parseLoop]
    rw [if_pos hc, hpair, if_neg (by decide), if_neg (by decide), if_pos rfl,
      if_neg (by omega)]
  · simp only [parseLoop]
    rw [if_pos hc, hpair, if_neg (by decide), if_neg (by decide), if_pos rfl,
      if_pos hd]
  · rw [runTokens, hp]

/-- Witness for C7: the sequence `？！` alone. -/
theorem unmatched_loopEnd_fails_witness :
    parseLoop 3 ['？', '！'] 0 0 [] = some (.error .unmatchedLoopEnd) ∧
    runTokens 5 ['？', '！'] = some (.error (.parseErr .unmatchedLoopEnd)) :=
  ⟨unmatched_loopEnd_fails.1 2 ['？', '！'] 0 [] (by decide) rfl,
   unmatched_loopEnd_fails.2.2 5 ['？', '！'] .unmatchedLoopEnd rfl⟩

/-! ## Round-trip: tokenizing concatenated valid tokens, then parsing -/

/-- One lexer step whose window starts a valid token: the marker is
pushed and the cursor moves 4 right. -/
theorem tokStep_of_drop (input : List Char) (c : Nat) (tks : List Char)
    (ch : Char) (r1 : List Char) (h : input.drop c = ch :: r1)
    (hws : isJsWhitespace ch = false) (hcm : ¬ (ch :: r1).take 2 = ['/', '*'])
    (htk : (ch :: r1).take 4 ∈ validTokensL) :
    tokStep input c tks = .cont (c + 4) (tks ++ [((ch :: r1).take 4).getD 3 ' ']) := by
  simp only [tokStep, h, hws, hcm, htk]
  simp

/-- Lexing the concatenation of valid tokens, from the end of any
already-consumed text: one marker per token, in order. -/
theorem tokRun_concat : ∀ (toks : List (List Char)), (∀ t ∈ toks, t ∈ validTokensL) →
    ∀ (pre : List Char) (tks : List Char) (f : Nat), toks.length < f →
    tokRun f (pre ++ toks.flatten) pre.length tks =
      some (.ok (tks ++ toks.map (fun t => t.getD 3 ' '))) := by
  intro toks
  induction toks with
  | nil =>
    intro hv pre tks f hf
    rcases f with _ | g
    · omega
    · rw [tokRun]
      have hstep : tokStep (pre ++ List.flatten []) pre.length tks = .done tks := by
        simp only [tokStep, List.flatten_nil, List.append_nil, List.drop_length]
      rw [hstep]
      simp
  | cons t rest ih =>
    intro hv pre tks f hf
    have ht : t ∈ validTokensL := hv t (by simp)
    rcases f with _ | g
    · omega
    · have hdrop : (pre ++ (t :: rest).flatten).drop pre.length = t ++ rest.flatten := by
        rw [List.flatten_cons, List.drop_left]
      have hrest : ∀ x ∈ rest, x ∈ validTokensL := fun x hx => hv x (by simp [hx])
      have hf' : rest.length < g := by simp at hf; omega
      simp [validTokensL] at ht
      have hcm2 : ¬ (['う', 'ん'] : List Char) = ['/', '*'] := by decide
      rcases ht with h | h | h
      all_goals subst h
      · have hmem : (['う', 'ん', 'ち', '！'] : List Char) ∈ validTokensL := by decide
        rw [tokRun, tokStep_of_drop _ _ _ 'う' (['ん', 'ち', '！'] ++ rest.flatten) hdrop
          (by decide) hcm2 hmem]
        have hre : pre ++ (['う', 'ん', 'ち', '！'] :: rest).flatten =
            (pre ++ ['う', 'ん', 'ち', '！']) ++ rest.flatten := by
          rw [List.flatten_cons, ← List.append_assoc]
        have hlen4 : pre.length + 4 = (pre ++ ['う', 'ん', 'ち', '！']).length := by
          simp
        rw [hre, hlen4]
        show tokRun g ((pre ++ ['う', 'ん', 'ち', '！']) ++ rest.flatten)
          ((pre ++ ['う', 'ん', 'ち', '！']).length) (tks ++ ['！']) =
          some (.ok (tks ++ (['う', 'ん', 'ち', '！'] :: rest).map (fun t => t.getD 3 ' ')))
        rw [ih hrest (pre ++ ['う', 'ん', 'ち', '！']) (tks ++ ['！']) g hf']
        simp
      · have hmem : (['う', 'ん', 'ち', '？'] : List Char) ∈ validTokensL := by decide
        rw [tokRun, tokStep_of_drop _ _ _ 'う' (['ん', 'ち', '？'] ++ rest.flatten) hdrop
          (by decide) hcm2 hmem]
        have hre : pre ++ (['う', 'ん', 'ち', '？'] :: rest).flatten =
            (pre ++ ['う', 'ん', 'ち', '？']) ++ rest.flatten := by
          rw [List.flatten_cons, ← List.append_assoc]
        have hlen4 : pre.length + 4 = (pre ++ ['う', 'ん', 'ち', '？']).length := by
          simp
        rw [hre, hlen4]
        show tokRun g ((pre ++ ['う', 'ん', 'ち', '？']) ++ rest.flatten)
          ((pre ++ ['う', 'ん', 'ち', '？']).length) (tks ++ ['？']) =
          some (.ok (tks ++ (['う', 'ん', 'ち', '？'] :: rest).map (fun t => t.getD 3 ' ')))
        rw [ih hrest (pre ++ ['う', 'ん', 'ち', '？']) (tks ++ ['？']) g hf']
        simp
      · have hmem : (['う', 'ん', 'ち', '。'] : List Char) ∈ validTokensL := by decide
        rw [tokRun, tokStep_of_drop _ _ _ 'う' (['ん', 'ち', '。'] ++ rest.flatten) hdrop
          (by decide) hcm2 hmem]
        have hre : pre ++ (['う', 'ん', 'ち', '。'] :: rest).flatten =
            (pre ++ ['う', 'ん', 'ち', '。']) ++ rest.flatten := by
          rw [List.flatten_cons, ← List.append_assoc]
        have hlen4 : pre.length + 4 = (pre ++ ['う', 'ん', 'ち', '。']).length := by
          simp
        rw [hre, hlen4]
        show tokRun g ((pre ++ ['う', 'ん', 'ち', '。']) ++ rest.flatten)
          ((pre ++ ['う', 'ん', 'ち', '。']).length) (tks ++ ['。']) =
          some (.ok (tks ++ (['う', 'ん', 'ち', '。'] :: rest).map (fun t => t.getD 3 ' ')))
        rw [ih hrest (pre ++ ['う', 'ん', 'ち', '。']) (tks ++ ['。']) g hf']
        simp

/-- C9, counterexample to the claim as stated: the concatenation of
N = 2 valid instruction tokens (`うんち。うんち。`, no loops, so trivially
matched) tokenizes to the 2 markers `。。` and parses to exactly ONE
marker-pair instruction, not N = 2. -/
theorem token_count_counterexample :
    tokenize 3 "うんち。うんち。".toList = some (.ok ['。', '。']) ∧
    parse ['。', '。'] = some (.ok [Ast.simple "。。"]) ∧
    countL [Ast.simple "。。"] = 1 ∧ (1 : Nat) ≠ 2 :=
  ⟨rfl, rfl, rfl, by decide⟩

/-- C9 as amended: tokenizing the concatenation of N valid tokens (N
even, encoded loops matched) yields the N markers, and parsing them
succeeds with instructions consuming exactly N/2 marker pairs
(`countL`: one per simple node, two plus the body per loop node). -/
theorem tokens_parse_halved_count :
    ∀ toks : List (List Char), (∀ t ∈ toks, t ∈ validTokensL) →
      toks.length % 2 = 0 →
      Balanced (pairsOf (toks.map (fun t => t.getD 3 ' '))) →
      tokenize (toks.length + 1) toks.flatten =
        some (.ok (toks.map (fun t => t.getD 3 ' '))) ∧
      ∃ l, parse (toks.map (fun t => t.getD 3 ' ')) = some (.ok l) ∧
        countL l = toks.length / 2 := by
  intro toks hv hev hbal
  constructor
  · have h := tokRun_concat toks hv [] [] (toks.length + 1) (by omega)
    simpa [tokenize] using h
  · obtain ⟨ns, hcount, hrun⟩ := balanced_consumed _ hbal
    obtain ⟨heq, hq⟩ := hrun (toks.map (fun t => t.getD 3 ' ')) 0 0 [] [] (by simp)
    have hlen : (toks.map (fun t => t.getD 3 ' ')).length = toks.length := by simp
    have hplen : 2 * (pairsOf (toks.map (fun t => t.getD 3 ' '))).length =
        (toks.map (fun t => t.getD 3 ' ')).length :=
      pairsOf_length _ (by omega)
    have hge : (toks.map (fun t => t.getD 3 ' ')).length ≤
        0 + 2 * (pairsOf (toks.map (fun t => t.getD 3 ' '))).length := by omega
    have hfinal : parseLoop ((toks.map (fun t => t.getD 3 ' ')).length + 1)
        (toks.map (fun t => t.getD 3 ' ')) 0 0 [] =
        some (.ok ((ns.reverse ++ []).reverse,
          0 + 2 * (pairsOf (toks.map (fun t => t.getD 3 ' '))).length, 0)) := by
      rw [heq]
      exact parseLoop_exit_step _ _ _ _ _ hge
    refine ⟨(ns.reverse ++ []).reverse, ?_, ?_⟩
    · rw [parse, if_neg (by omega), hfinal]
    · have hns : (ns.reverse ++ []).reverse = ns := by simp
      rw [hns, hcount]
      omega

/-- Witness for C9 (amended): two `うんち。` tokens — one instruction. -/
theorem tokens_parse_halved_count_witness :
    tokenize 3 (["うんち。".toList, "うんち。".toList].flatten) =
      some (.ok (["うんち。".toList, "うんち。".toList].map (fun t => t.getD 3 ' '))) ∧
    ∃ l, parse (["うんち。".toList, "うんち。".toList].map (fun t => t.getD 3 ' ')) =
        some (.ok l) ∧ countL l = 1 := by
  have hb : Balanced (pairsOf (["うんち。".toList, "うんち。".toList].map
      (fun t => t.getD 3 ' '))) := by
    have hp : pairsOf (["うんち。".toList, "うんち。".toList].map
        (fun t => t.getD 3 ' ')) = ["。。"] := by decide
    rw [hp]
    exact Balanced.simple "。。" [] (by decide) (by decide) (by decide) (by decide)
      Balanced.nil
  exact tokens_parse_halved_count ["うんち。".toList, "うんち。".toList] (by decide) rfl hb

end Poop
